import Mathlib

/-!
# Verification of `mccd/mccd_utils.py`

Shallow embedding of the MCCD utility module: the MegaCam local-to-global
coordinate mapper (`Loc2Glob`), the catalog batcher and input assembler
(`MccdInputs`), the moment-based outlier rejector, the local/global
nearest-neighbor search, the polynomial interpolation matrix builder
(`interpolation_Pi`) and the grid reorientation of `MomentInterpolator`.

Conventions: Python floats are modelled as `ℚ` where only ring operations
and comparisons occur, and as `ℝ` where square roots appear (`np.std`,
L2 norms).  Python functions that can fall off the end (returning `None`)
or raise are modelled with `Option`.
-/

namespace Mccd

/-- Geometry constants of the MegaCam mosaic (`Loc2Glob.__init__`):
horizontal/vertical gap between CCDs and per-CCD pixel extents. -/
structure Loc2Glob where
  x_gap : ℚ
  y_gap : ℚ
  x_npix : ℚ
  y_npix : ℚ

/-- The CFIS default geometry (`x_gap=70, y_gap=425, x_npix=2048, y_npix=4612`). -/
def defaultLoc2Glob : Loc2Glob := ⟨70, 425, 2048, 4612⟩

/-- `Loc2Glob.flip_coord`: for CCDs `< 18` or in `[36, 37]` both coordinates
are negated-and-offset (`x_npix - x + 1`, `y_npix - y + 1`); all other CCDs
pass through unchanged. -/
def Loc2Glob.flip_coord (L : Loc2Glob) (ccd_n : ℤ) (x_coor y_coor : ℚ) : ℚ × ℚ :=
  if ccd_n < 18 ∨ ccd_n = 36 ∨ ccd_n = 37 then
    (L.x_npix - x_coor + 1, L.y_npix - y_coor + 1)
  else
    (x_coor, y_coor)

/-- `Loc2Glob.shift_coord`: per-CCD shift from the local origin to the global
origin.  The Python function is a chain of `if ccd_n < _` branches and
implicitly returns `None` (here `none`) when `ccd_n ≥ 40`; negative ids fall
into the first branch. -/
def Loc2Glob.shift_coord (L : Loc2Glob) (ccd_n : ℤ) : Option (ℚ × ℚ) :=
  if ccd_n < 9 then
    -- first row
    some (((ccd_n : ℚ) - 4) * (L.x_gap + L.x_npix), L.y_gap + L.y_npix)
  else if ccd_n < 18 then
    -- second row, non-ears
    some (((ccd_n : ℚ) - 13) * (L.x_gap + L.x_npix), 0)
  else if ccd_n < 27 then
    -- third row, non-ears
    some (((ccd_n : ℚ) - 22) * (L.x_gap + L.x_npix), -1 * (L.y_gap + L.y_npix))
  else if ccd_n < 36 then
    -- fourth row
    some (((ccd_n : ℚ) - 31) * (L.x_gap + L.x_npix), -2 * (L.y_gap + L.y_npix))
  else if ccd_n < 37 then
    -- ccd 36, ears second row
    some ((-5) * (L.x_gap + L.x_npix), 0)
  else if ccd_n < 38 then
    -- ccd 37, ears second row
    some (5 * (L.x_gap + L.x_npix), 0)
  else if ccd_n < 39 then
    -- ccd 38, ears third row
    some ((-5) * (L.x_gap + L.x_npix), -1 * (L.y_gap + L.y_npix))
  else if ccd_n < 40 then
    -- ccd 39, ears third row
    some (5 * (L.x_gap + L.x_npix), -1 * (L.y_gap + L.y_npix))
  else
    none

/-- `Loc2Glob.loc2glob_img_coord`: flip the axes, then add the per-CCD shift.
The Python unpacking `x_shift, y_shift = self.shift_coord(ccd_n)` raises when
`shift_coord` returns `None`, modelled by propagating `none`. -/
def Loc2Glob.loc2glob_img_coord (L : Loc2Glob) (ccd_n : ℤ) (x_coor y_coor : ℚ) :
    Option (ℚ × ℚ) :=
  let fc := L.flip_coord ccd_n x_coor y_coor
  (L.shift_coord ccd_n).map fun sh => (fc.1 + sh.1, fc.2 + sh.2)

/-- Claim-side restatement (from the spec's words, for claim C1) of the
orientation flip and per-tile offset table: flip exactly when the id is below
18 or is 36 or 37, then add the row-table shift with the hard-coded symmetric
ear offsets. -/
def loc2globClaimTable (L : Loc2Glob) (ccd_n : ℤ) (x y : ℚ) : ℚ × ℚ :=
  let flipped : ℚ × ℚ :=
    if ccd_n < 18 ∨ ccd_n = 36 ∨ ccd_n = 37 then
      (L.x_npix - x + 1, L.y_npix - y + 1)
    else (x, y)
  let shift : ℚ × ℚ :=
    if ccd_n = 36 then ((-5) * (L.x_gap + L.x_npix), 0)
    else if ccd_n = 37 then (5 * (L.x_gap + L.x_npix), 0)
    else if ccd_n = 38 then ((-5) * (L.x_gap + L.x_npix), -(L.y_gap + L.y_npix))
    else if ccd_n = 39 then (5 * (L.x_gap + L.x_npix), -(L.y_gap + L.y_npix))
    else if ccd_n < 9 then (((ccd_n : ℚ) - 4) * (L.x_gap + L.x_npix), L.y_gap + L.y_npix)
    else if ccd_n < 18 then (((ccd_n : ℚ) - 13) * (L.x_gap + L.x_npix), 0)
    else if ccd_n < 27 then (((ccd_n : ℚ) - 22) * (L.x_gap + L.x_npix), -(L.y_gap + L.y_npix))
    else (((ccd_n : ℚ) - 31) * (L.x_gap + L.x_npix), -2 * (L.y_gap + L.y_npix))
  (flipped.1 + shift.1, flipped.2 + shift.2)

/-- Claim C1: for every tile id in `0..39` and every local `(x, y)`,
`loc2glob_img_coord` first applies the orientation flip exactly when the id is
below 18 or is 36 or 37, and then adds the per-tile shift of the fixed row
table (with the hard-coded ear offsets); the result is the deterministic pure
function `loc2globClaimTable`. -/
theorem loc2glob_img_coord_eq_claimTable (L : Loc2Glob) (ccd_n : ℤ) (x y : ℚ)
    (h0 : 0 ≤ ccd_n) (h40 : ccd_n < 40) :
    L.loc2glob_img_coord ccd_n x y = some (loc2globClaimTable L ccd_n x y) := by
  interval_cases ccd_n <;>
    · simp only [Loc2Glob.loc2glob_img_coord, Loc2Glob.flip_coord, Loc2Glob.shift_coord,
        loc2globClaimTable]
      norm_num

/-- Witness for C1: CCD 4 at local position (100, 200). -/
theorem loc2glob_img_coord_eq_claimTable_witness :
    ((0:ℤ) ≤ 4 ∧ (4:ℤ) < 40) ∧
      defaultLoc2Glob.loc2glob_img_coord 4 100 200 =
        some (loc2globClaimTable defaultLoc2Glob 4 100 200) :=
  ⟨⟨by decide, by decide⟩,
    loc2glob_img_coord_eq_claimTable defaultLoc2Glob 4 100 200 (by decide) (by decide)⟩

/-- Counterexample to claim C5: the tile id `-1` is outside `0..39`, yet
`loc2glob_img_coord` does not fail: the negative id falls into the
`ccd_n < 9` branch of `shift_coord` and a value is returned. -/
theorem loc2glob_img_coord_neg_id_no_error :
    defaultLoc2Glob.loc2glob_img_coord (-1) 100 200 ≠ none := by
  simp [Loc2Glob.loc2glob_img_coord, Loc2Glob.shift_coord, defaultLoc2Glob]

/-- Amended C5: `loc2glob_img_coord` fails (the missing shift propagates as
`none`, the Python unpacking raises) exactly when the tile id is `≥ 40`;
every id `< 40` — including every negative id — produces a value. -/
theorem loc2glob_img_coord_none_iff (L : Loc2Glob) (ccd_n : ℤ) (x y : ℚ) :
    L.loc2glob_img_coord ccd_n x y = none ↔ 40 ≤ ccd_n := by
  unfold Loc2Glob.loc2glob_img_coord Loc2Glob.shift_coord
  split_ifs <;> simp <;> omega

/-! ## `MccdInputs.handle_mask` (claim C9)

A star stamp is modelled as its (flattened) list of pixel values.
`handle_mask` builds a binary mask (`1` everywhere, `0` where the stamp value
is strictly below the threshold) and, when `apply_to_stars` is set, zeroes
exactly those below-threshold pixels of the stamp in place.  The model
returns the pair (mask, stamp after the call). -/

/-- `MccdInputs.handle_mask`: `mask = np.ones(...)`, `mask[stars < thresh] = 0`,
and when `apply_to_stars`, `stars[stars < thresh] = 0`. -/
def handle_mask (stars : List ℚ) (thresh : ℚ) (apply_to_stars : Bool) :
    List ℚ × List ℚ :=
  (stars.map fun v => if v < thresh then 0 else 1,
   if apply_to_stars then stars.map fun v => if v < thresh then 0 else v
   else stars)

/-- Claim C9: the mask is `0` exactly at indices where the stamp value is
strictly below the threshold and `1` elsewhere (values equal to the threshold
stay valid); with `apply_to_stars` set, exactly the below-threshold pixels are
zeroed and every other pixel keeps its value. -/
theorem handle_mask_spec (stars : List ℚ) (thresh : ℚ) (b : Bool) (i : ℕ)
    (hi : i < stars.length) :
    ((handle_mask stars thresh b).1.getD i 0 = 0 ↔ stars.getD i 0 < thresh) ∧
    ((handle_mask stars thresh b).1.getD i 0 = 1 ↔ ¬ stars.getD i 0 < thresh) ∧
    (b = true →
      (handle_mask stars thresh true).2.getD i 0 =
        if stars.getD i 0 < thresh then 0 else stars.getD i 0) ∧
    (b = false → (handle_mask stars thresh false).2 = stars) := by
  have hmap : ∀ (f : ℚ → ℚ), (stars.map f).getD i 0 = f (stars.getD i 0) := by
    intro f
    rw [List.getD_eq_getElem _ _ hi, List.getD_eq_getElem _ _ (by simpa using hi),
      List.getElem_map]
  refine ⟨?_, ?_, ?_, ?_⟩
  · simp only [handle_mask, hmap]
    split_ifs with h
    · exact iff_of_true rfl h
    · exact iff_of_false (by norm_num) h
  · simp only [handle_mask, hmap]
    split_ifs with h
    · exact iff_of_false (by norm_num) (not_not_intro h)
    · exact iff_of_true rfl h
  · intro _
    simp only [handle_mask, if_pos, hmap]
  · intro _
    simp [handle_mask]

/-- Witness for C9: stamp `[5, -7]`, threshold `0`; pixel `1` is below the
threshold, pixel `0` is not. -/
theorem handle_mask_spec_witness :
    (1 < ([(5 : ℚ), -7]).length) ∧
      ((handle_mask [(5 : ℚ), -7] 0 true).1.getD 1 0 = 0 ↔
        ([(5 : ℚ), -7]).getD 1 0 < 0) :=
  ⟨by decide, (handle_mask_spec [(5 : ℚ), -7] 0 true 1 (by decide)).1⟩

/-! ## `MccdInputs.prep_mccd_inputs` (claim C4) -/

/-- One per-CCD catalog record, as read from its FITS file: the position
columns, the stamp cube (`VIGNET`, one pixel list per star), the CCD id, and
the optional `SNR_WIN` / `XWIN_WORLD` / `YWIN_WORLD` columns (`none` when the
column is missing from the file).  Reading the file itself is the external
payload-reader collaborator. -/
structure Record where
  xs : List ℚ
  ys : List ℚ
  vignet : List (List ℚ)
  ccd : ℤ
  snr : Option (List ℚ)
  ra : Option (List ℚ)
  declination : Option (List ℚ)

/-- One loop iteration of `prep_mccd_inputs` for `SNR_list`: reading a missing
`SNR_WIN` column raises (the `except` sets the state to `None`), and once the
state is `None` the call `None.append(SNR)` raises as well, so the state stays
`None`. -/
def snrStep (state : Option (List (List ℚ))) (r : Record) : Option (List (List ℚ)) :=
  match r.snr, state with
  | none, _ => none
  | some _, none => none
  | some v, some l => some (l ++ [v])

/-- One loop iteration of `prep_mccd_inputs` for `RA_list`/`DEC_list` (the two
Python variables always become `None` together, so the state is one optional
pair): a missing `XWIN_WORLD`, a missing `YWIN_WORLD`, or an append on `None`
all raise, and the `except` sets both lists to `None`. -/
def radecStep (state : Option (List (List ℚ) × List (List ℚ))) (r : Record) :
    Option (List (List ℚ) × List (List ℚ)) :=
  match r.ra, r.declination, state with
  | none, _, _ => none
  | some _, _, none => none
  | some _, none, some _ => none
  | some a, some d, some s => some (s.1 ++ [a], s.2 ++ [d])

/-- The tuple returned by `prep_mccd_inputs`. -/
structure PrepOut where
  star_list : List (List (List ℚ))
  position_list : List (List (Option (ℚ × ℚ)))
  mask_list : List (List (List ℚ))
  ccd_list : List ℤ
  SNR_list : Option (List (List ℚ))
  RA_list : Option (List (List ℚ))
  DEC_list : Option (List (List ℚ))

/-- `MccdInputs.prep_mccd_inputs` on one exposure batch: per record, global
positions via `loc2glob_img_coord`, masks and thresholded stamps via
`handle_mask` (called with `apply_to_stars=True`), and the all-or-nothing
optional `SNR`/`RA`/`DEC` accumulators. -/
def prep_mccd_inputs (mask_thresh : ℚ) (batch : List Record) : PrepOut where
  star_list := batch.map fun r => r.vignet.map fun s => (handle_mask s mask_thresh true).2
  position_list := batch.map fun r =>
    (r.xs.zip r.ys).map fun p => defaultLoc2Glob.loc2glob_img_coord r.ccd p.1 p.2
  mask_list := batch.map fun r => r.vignet.map fun s => (handle_mask s mask_thresh true).1
  ccd_list := batch.map Record.ccd
  SNR_list := batch.foldl snrStep (some [])
  RA_list := (batch.foldl radecStep (some ([], []))).map Prod.fst
  DEC_list := (batch.foldl radecStep (some ([], []))).map Prod.snd

theorem snr_foldl_none (batch : List Record) : batch.foldl snrStep none = none := by
  induction batch with
  | nil => rfl
  | cons r rs ih =>
      cases h : r.snr <;> simp [List.foldl_cons, snrStep, h, ih]

theorem snr_foldl_char (batch : List Record) (acc : List (List ℚ)) :
    batch.foldl snrStep (some acc) =
      if batch.all fun r => r.snr.isSome then
        some (acc ++ batch.filterMap Record.snr)
      else none := by
  induction batch generalizing acc with
  | nil => simp
  | cons r rs ih =>
      cases h : r.snr with
      | none => simp [List.foldl_cons, snrStep, h, snr_foldl_none]
      | some v => simp [List.foldl_cons, snrStep, h, ih]

theorem radec_foldl_none (batch : List Record) : batch.foldl radecStep none = none := by
  induction batch with
  | nil => rfl
  | cons r rs ih =>
      cases ha : r.ra <;> cases hd : r.declination <;>
        simp [List.foldl_cons, radecStep, ha, hd, ih]

theorem radec_foldl_char (batch : List Record) (accA accD : List (List ℚ)) :
    batch.foldl radecStep (some (accA, accD)) =
      if batch.all fun r => r.ra.isSome && r.declination.isSome then
        some (accA ++ batch.filterMap Record.ra,
          accD ++ batch.filterMap Record.declination)
      else none := by
  induction batch generalizing accA accD with
  | nil => simp
  | cons r rs ih =>
      cases ha : r.ra with
      | none => simp [List.foldl_cons, radecStep, ha, radec_foldl_none]
      | some a =>
          cases hd : r.declination with
          | none => simp [List.foldl_cons, radecStep, ha, hd, radec_foldl_none]
          | some d => simp [List.foldl_cons, radecStep, ha, hd, ih]

theorem length_filterMap_of_all {α β : Type} (f : α → Option β) (l : List α)
    (h : l.all fun x => (f x).isSome) : (l.filterMap f).length = l.length := by
  induction l with
  | nil => rfl
  | cons x xs ih =>
      simp only [List.all_cons, Bool.and_eq_true] at h
      obtain ⟨v, hv⟩ := Option.isSome_iff_exists.mp h.1
      simp [List.filterMap_cons, hv, ih h.2]

/-- Claim C4: the returned `SNR_list` is `None` exactly when some record of
the batch lacks the SNR column (never a partially filled list), and likewise
`RA_list` and `DEC_list` are both `None` exactly when some record lacks one of
the sky-coordinate columns; when every record has the fields, the output has
exactly one entry per CCD of the batch.  This holds regardless of which
record lacks the field. -/
theorem prep_mccd_inputs_optional_fields (mask_thresh : ℚ) (batch : List Record) :
    ((prep_mccd_inputs mask_thresh batch).SNR_list =
      if batch.all (fun r => r.snr.isSome) then some (batch.filterMap Record.snr)
      else none) ∧
    ((prep_mccd_inputs mask_thresh batch).SNR_list.map List.length =
      if batch.all (fun r => r.snr.isSome) then some batch.length else none) ∧
    ((prep_mccd_inputs mask_thresh batch).RA_list =
      if batch.all (fun r => r.ra.isSome && r.declination.isSome) then
        some (batch.filterMap Record.ra)
      else none) ∧
    ((prep_mccd_inputs mask_thresh batch).DEC_list =
      if batch.all (fun r => r.ra.isSome && r.declination.isSome) then
        some (batch.filterMap Record.declination)
      else none) ∧
    ((prep_mccd_inputs mask_thresh batch).RA_list.map List.length =
      if batch.all (fun r => r.ra.isSome && r.declination.isSome) then
        some batch.length
      else none) := by
  have hsnr : (prep_mccd_inputs mask_thresh batch).SNR_list =
      if batch.all (fun r => r.snr.isSome) then some (batch.filterMap Record.snr)
      else none := by
    simpa using snr_foldl_char batch []
  have hradec := radec_foldl_char batch [] []
  have hra : (prep_mccd_inputs mask_thresh batch).RA_list =
      if batch.all (fun r => r.ra.isSome && r.declination.isSome) then
        some (batch.filterMap Record.ra)
      else none := by
    simp only [prep_mccd_inputs, hradec]
    split_ifs <;> simp
  have hdec : (prep_mccd_inputs mask_thresh batch).DEC_list =
      if batch.all (fun r => r.ra.isSome && r.declination.isSome) then
        some (batch.filterMap Record.declination)
      else none := by
    simp only [prep_mccd_inputs, hradec]
    split_ifs <;> simp
  refine ⟨hsnr, ?_, hra, hdec, ?_⟩
  · rw [hsnr]
    split_ifs with h
    · simp [length_filterMap_of_all _ _ h]
    · rfl
  · rw [hra]
    split_ifs with h
    · have : batch.all (fun r => r.ra.isSome) := by
        simp only [List.all_eq_true, Bool.and_eq_true] at h ⊢
        exact fun r hr => (h r hr).1
      simp [length_filterMap_of_all _ _ this]
    · rfl

/-! ## `MccdInputs.parse_path` / `parse_folder` / `parse_pipeline_input_list`
(claim C6)

Paths are modelled as lists of characters.  `parse_folder` and
`parse_pipeline_input_list` share the same grouping core: parse every path
into `(starcat_id, ccd_n, path)`, take the `np.unique` (sorted distinct)
exposure ids, and build one group per id by boolean-indexing the parsed
rows. -/

/-- Python `str.split(sep)` for a one-character separator. -/
def splitOnChar (sep : Char) : List Char → List (List Char)
  | [] => [[]]
  | c :: rest =>
      let r := splitOnChar sep rest
      if c = sep then [] :: r
      else
        match r with
        | [] => [[c]]
        | g :: gs => (c :: g) :: gs

/-- `MccdInputs.parse_path`: drop the extension (`path.split('.')[0]`) and
read the exposure id and the CCD id as the last-but-one and last
separator-delimited tokens.  (Python raises `IndexError` on a path with fewer
than two tokens; such paths are outside the modelled domain.) -/
def parse_path (sep : Char) (path : List Char) : List Char × List Char :=
  let my_path := (splitOnChar '.' path).headD []
  let s := splitOnChar sep my_path
  (s.getD (s.length - 2) [], s.getD (s.length - 1) [])

/-- One row of `complete_list`: `(starcat_id, ccd_n, path)`. -/
structure CatRow where
  starcat_id : List Char
  ccd_n : List Char
  path : List Char
deriving DecidableEq

/-- Lexicographic comparison on character lists (`np.unique` returns the
distinct ids sorted). -/
def lexLe : List Char → List Char → Bool
  | [], _ => true
  | _ :: _, [] => false
  | a :: as, b :: bs => if a < b then true else if b < a then false else lexLe as bs

/-- `np.unique` on the exposure-id column: the distinct ids, sorted. -/
def uniqueIds (ids : List (List Char)) : List (List Char) :=
  ids.dedup.mergeSort lexLe

/-- Grouping core of `parse_folder` / `parse_pipeline_input_list`: one group
per distinct `starcat_id`, each group selecting (in input order) the rows
whose id matches.  No duplicate-CCD check of any kind is performed. -/
def starcatGroups (sep : Char) (paths : List (List Char)) : List (List CatRow) :=
  let complete_list := paths.map fun p =>
    CatRow.mk (parse_path sep p).1 (parse_path sep p).2 p
  (uniqueIds (complete_list.map CatRow.starcat_id)).map fun st_id =>
    complete_list.filter fun row => decide (row.starcat_id = st_id)

unseal List.merge List.mergeSort in
/-- Counterexample to claim C6: two distinct files of the same exposure
`111` and the same CCD `04`.  The batcher does not fail: it returns one group
in which the tile id `04` appears twice. -/
theorem starcatGroups_duplicate_tile_counterexample :
    (starcatGroups '-'
        [('a' :: "-111-04.fits".toList), ('b' :: "-111-04.fits".toList)]).map
      (fun g => g.map CatRow.ccd_n) = [["04".toList, "04".toList]] := by
  decide

theorem sum_map_ite_eq_one {β : Type} [DecidableEq β] (us : List β) (b : β)
    (hnd : us.Nodup) (hb : b ∈ us) :
    (us.map fun u => if b = u then (1 : ℕ) else 0).sum = 1 := by
  induction us with
  | nil => cases hb
  | cons u us ih =>
      obtain ⟨hu, hnd'⟩ := List.nodup_cons.mp hnd
      rcases List.mem_cons.mp hb with rfl | hb'
      · simp only [List.map_cons, List.sum_cons, if_pos rfl]
        have hz : (us.map fun x => if b = x then (1 : ℕ) else 0).sum = 0 := by
          apply List.sum_eq_zero
          intro n hn
          obtain ⟨x, hx, rfl⟩ := List.mem_map.mp hn
          have hbx : b ≠ x := fun h => hu (h ▸ hx)
          simp [hbx]
        rw [hz]
        simp
      · have hbu : b ≠ u := fun h => absurd hb' (h ▸ hu)
        simp only [List.map_cons, List.sum_cons, if_neg hbu, Nat.zero_add]
        exact ih hnd' hb'

theorem sum_length_filter_key {α β : Type} [DecidableEq β] (key : α → β)
    (us : List β) (hnd : us.Nodup) (rows : List α)
    (hcover : ∀ r ∈ rows, key r ∈ us) :
    (us.map fun u => (rows.filter fun x => decide (key x = u)).length).sum
      = rows.length := by
  induction rows with
  | nil => simp
  | cons r rs ih =>
      have hcov' : ∀ x ∈ rs, key x ∈ us := fun x hx =>
        hcover x (List.mem_cons_of_mem _ hx)
      have hstep : ∀ u, ((r :: rs).filter fun x => decide (key x = u)).length
          = (if key r = u then 1 else 0)
            + (rs.filter fun x => decide (key x = u)).length := by
        intro u
        rw [List.filter_cons]
        by_cases h : key r = u
        · simp [h, Nat.add_comm]
        · simp [h]
      calc (us.map fun u => ((r :: rs).filter fun x => decide (key x = u)).length).sum
          = (us.map fun u => (if key r = u then 1 else 0)
              + (rs.filter fun x => decide (key x = u)).length).sum :=
            congrArg List.sum (List.map_congr_left fun u _ => hstep u)
        _ = (us.map fun u => if key r = u then (1 : ℕ) else 0).sum
              + (us.map fun u => (rs.filter fun x => decide (key x = u)).length).sum := by
            rw [List.sum_map_add]
        _ = 1 + rs.length := by
            rw [sum_map_ite_eq_one us (key r) hnd (hcover r (List.mem_cons_self r rs)),
              ih hcov']
        _ = (r :: rs).length := by
            simp [Nat.add_comm]

/-- Amended C6: for every input file list the batcher produces exactly one
group per distinct exposure id — the number of groups is the number of
distinct parsed ids, every group is nonempty and id-homogeneous, and every
input record lands in exactly one group (the group sizes sum to the input
size).  It never fails on duplicate tiles; duplicate `(exposure, CCD)` records
are simply kept in the same group (see the counterexample). -/
theorem starcatGroups_partition (sep : Char) (paths : List (List Char)) :
    ((starcatGroups sep paths).length =
      ((paths.map fun p => (parse_path sep p).1).dedup).length) ∧
    (∀ g ∈ starcatGroups sep paths, g ≠ [] ∧
      ∃ sid, ∀ row ∈ g, row.starcat_id = sid) ∧
    (((starcatGroups sep paths).map List.length).sum = paths.length) := by
  have hrows : starcatGroups sep paths =
      (uniqueIds ((paths.map fun p =>
          CatRow.mk (parse_path sep p).1 (parse_path sep p).2 p).map
            CatRow.starcat_id)).map fun st_id =>
        (paths.map fun p =>
          CatRow.mk (parse_path sep p).1 (parse_path sep p).2 p).filter
            fun row => decide (row.starcat_id = st_id) := rfl
  generalize hcl : (paths.map fun p =>
      CatRow.mk (parse_path sep p).1 (parse_path sep p).2 p) = rows at hrows
  have hids : rows.map CatRow.starcat_id = paths.map fun p => (parse_path sep p).1 := by
    rw [← hcl, List.map_map]
    rfl
  have hperm : List.Perm (uniqueIds (rows.map CatRow.starcat_id))
      ((rows.map CatRow.starcat_id).dedup) :=
    List.mergeSort_perm _ _
  refine ⟨?_, ?_, ?_⟩
  · rw [hrows, List.length_map, hperm.length_eq, hids]
  · intro g hg
    rw [hrows] at hg
    simp only [List.mem_map] at hg
    obtain ⟨sid, hsid, rfl⟩ := hg
    constructor
    · have hsid' : sid ∈ rows.map CatRow.starcat_id :=
        List.mem_dedup.mp (hperm.mem_iff.mp hsid)
      obtain ⟨row, hrow, hrowid⟩ := List.mem_map.mp hsid'
      intro hnil
      have hmem : row ∈ rows.filter fun r => decide (r.starcat_id = sid) := by
        rw [List.mem_filter]
        exact ⟨hrow, by simp [hrowid]⟩
      rw [hnil] at hmem
      exact absurd hmem (List.not_mem_nil row)
    · exact ⟨sid, fun row hrow => by
        have := (List.mem_filter.mp hrow).2
        simpa using this⟩
  · rw [hrows, List.map_map]
    have hnd : (uniqueIds (rows.map CatRow.starcat_id)).Nodup :=
      hperm.nodup_iff.mpr (List.nodup_dedup _)
    have hcover : ∀ r ∈ rows, r.starcat_id ∈ uniqueIds (rows.map CatRow.starcat_id) := by
      intro r hr
      exact hperm.mem_iff.mpr (List.mem_dedup.mpr (List.mem_map_of_mem _ hr))
    have := sum_length_filter_key CatRow.starcat_id
      (uniqueIds (rows.map CatRow.starcat_id)) hnd rows hcover
    rw [show (List.length ∘ fun st_id =>
        rows.filter fun row => decide (row.starcat_id = st_id)) =
        (fun u => (rows.filter fun x => decide (x.starcat_id = u)).length) from rfl,
      this, ← hcl, List.length_map]

/-! ## `return_loc_neighbors` / `return_glob_neighbors` (claim C3) -/

/-- Squared Euclidean distance between two positions.  `np.linalg.norm`
computes its square root; sorting by the norm is sorting by the squared
norm. -/
def distSq (a b : ℚ × ℚ) : ℚ := (a.1 - b.1) ^ 2 + (a.2 - b.2) ^ 2

/-- The Euclidean distance `np.linalg.norm` computes. -/
noncomputable def euclid (a b : ℚ × ℚ) : ℝ := Real.sqrt ((distSq a b : ℚ) : ℝ)

/-- `return_loc_neighbors`: sort the training positions, with their values
(`vals[np.argsort(distances)]`, `obs_pos[np.argsort(distances)]`), by
distance to `new_pos`, and keep the first `n_neighbors` (`[:n_neighbors]`
truncates to what is available).  `np.argsort`'s quicksort leaves tie order
unspecified; the model fixes one argsort refinement with a merge sort. -/
def return_loc_neighbors {V : Type} (new_pos : ℚ × ℚ) (obs_pos : List (ℚ × ℚ))
    (vals : List V) (n_neighbors : ℕ) : List V × List (ℚ × ℚ) :=
  let sorted := (obs_pos.zip vals).mergeSort fun a b =>
    decide (distSq a.1 new_pos ≤ distSq b.1 new_pos)
  ((sorted.take n_neighbors).map Prod.snd, (sorted.take n_neighbors).map Prod.fst)

/-- The gather loops of `return_glob_neighbors`
(`[... for it in range(n_neighbors)]`): read the entries of the truncated
index arrays in order, failing — Python raises `IndexError` — as soon as
`it` runs past their length. -/
def gatherRange {α : Type} (xs : List α) : ℕ → Option (List α)
  | 0 => some []
  | n + 1 =>
      match gatherRange xs n, xs[n]? with
      | some acc, some x => some (acc ++ [x])
      | _, _ => none

theorem gatherRange_of_le {α : Type} (xs : List α) :
    ∀ n, n ≤ xs.length → gatherRange xs n = some (xs.take n)
  | 0, _ => by simp [gatherRange]
  | n + 1, h => by
      have h' : n ≤ xs.length := by omega
      simp only [gatherRange, gatherRange_of_le xs n h',
        List.getElem?_eq_getElem (show n < xs.length by omega)]
      rw [List.take_succ, List.getElem?_eq_getElem (show n < xs.length by omega)]
      rfl

theorem gatherRange_none {α : Type} (xs : List α) :
    ∀ n, xs.length < n → gatherRange xs n = none
  | 0, h => by omega
  | n + 1, h => by
      by_cases hlt : xs.length < n
      · simp only [gatherRange, gatherRange_none xs n hlt]
      · have hxn : xs[n]? = none := List.getElem?_eq_none (by omega)
        simp only [gatherRange, hxn]
        cases gatherRange xs n <;> rfl

/-- `return_glob_neighbors`: concatenate the (distance, ccd id, intra-ccd
index) triples of all CCDs, sort by distance, truncate the sorted index
arrays to `[:n_neighbors]`, then gather `val_list[ccd].T[i]` /
`obs_pos_list[ccd][i]` with `for it in range(n_neighbors)` — which indexes
past the truncated arrays, raising `IndexError` (`none`), whenever
`n_neighbors` exceeds the total observation count.  Gathering through the
(ccd, intra-ccd) index pairs is picking the pair out of the flattened
per-CCD (position, value) zips. -/
def return_glob_neighbors {V : Type} (new_pos : ℚ × ℚ)
    (obs_pos_list : List (List (ℚ × ℚ))) (val_list : List (List V))
    (n_neighbors : ℕ) : Option (List V × List (ℚ × ℚ)) :=
  let all := ((obs_pos_list.zip val_list).map fun pv => pv.1.zip pv.2).flatten
  let sorted := all.mergeSort fun a b =>
    decide (distSq a.1 new_pos ≤ distSq b.1 new_pos)
  match gatherRange (sorted.take n_neighbors) n_neighbors with
  | none => none
  | some gathered => some (gathered.map Prod.snd, gathered.map Prod.fst)

theorem neighborLe_trans (q : ℚ × ℚ) {V : Type} :
    ∀ a b c : (ℚ × ℚ) × V,
      decide (distSq a.1 q ≤ distSq b.1 q) →
        decide (distSq b.1 q ≤ distSq c.1 q) →
          decide (distSq a.1 q ≤ distSq c.1 q) := by
  intro a b c hab hbc
  simp only [decide_eq_true_eq] at hab hbc ⊢
  exact le_trans hab hbc

theorem neighborLe_total (q : ℚ × ℚ) {V : Type} :
    ∀ a b : (ℚ × ℚ) × V,
      decide (distSq a.1 q ≤ distSq b.1 q) || decide (distSq b.1 q ≤ distSq a.1 q) := by
  intro a b
  simpa using le_total (distSq a.1 q) (distSq b.1 q)

theorem euclid_le_of_distSq_le {a b q : ℚ × ℚ} (h : distSq a q ≤ distSq b q) :
    euclid a q ≤ euclid b q :=
  Real.sqrt_le_sqrt (by exact_mod_cast h)

/-- Sorted output and permutation facts shared by both neighbor searches:
with `k` at least the number of pairs, the whole sorted zip is returned. -/
theorem sorted_neighbors_all {V : Type} (q : ℚ × ℚ) (pairs : List ((ℚ × ℚ) × V))
    (k : ℕ) (hk : pairs.length ≤ k) :
    ((pairs.mergeSort fun a b =>
        decide (distSq a.1 q ≤ distSq b.1 q)).take k).Perm pairs ∧
    (((pairs.mergeSort fun a b =>
        decide (distSq a.1 q ≤ distSq b.1 q)).take k).map Prod.fst).Pairwise
      fun a b => euclid a q ≤ euclid b q := by
  have hlen : (pairs.mergeSort fun a b =>
      decide (distSq a.1 q ≤ distSq b.1 q)).length ≤ k := by
    rw [List.length_mergeSort]
    exact hk
  rw [List.take_of_length_le hlen]
  refine ⟨List.mergeSort_perm _ _, ?_⟩
  have hsorted := List.sorted_mergeSort (@neighborLe_trans q V)
    (@neighborLe_total q V) pairs
  exact hsorted.map Prod.fst fun a b hab =>
    euclid_le_of_distSq_le (by simpa using hab)

unseal List.merge List.mergeSort in
/-- Counterexample to claim C3: one CCD with a single observation and
`n_neighbors = 2 > 1`.  The truncated index arrays have one entry but the
gather loop runs `for it in range(2)`, so `return_glob_neighbors` raises
`IndexError` (modelled `none`) instead of returning all available
observations. -/
theorem return_glob_neighbors_k_gt_total_error :
    return_glob_neighbors ((0 : ℚ), (0 : ℚ)) [[((1 : ℚ), (1 : ℚ))]] [[(5 : ℤ)]] 2 =
      none := by
  decide

/-- Amended C3: for `k` at least the total number of available observations,
`return_loc_neighbors` returns all values and all positions (a permutation of
the inputs, no error) ordered by ascending Euclidean distance from the query.
`return_glob_neighbors` does the same across all CCDs of the exposure only
when `k` equals the total: it succeeds exactly when `k` is at most the total
observation count, and for every `k` strictly above it the gather loop
indexes past the truncated index arrays and fails (`IndexError`). -/
theorem neighbors_return_all_sorted {V : Type} (q : ℚ × ℚ)
    (obs_pos : List (ℚ × ℚ)) (vals : List V) (k : ℕ)
    (obs_pos_list : List (List (ℚ × ℚ))) (val_list : List (List V)) (kg : ℕ)
    (hlen : vals.length = obs_pos.length) (hk : obs_pos.length ≤ k)
    (hlen2 : val_list.length = obs_pos_list.length)
    (hlen3 : ∀ pv ∈ obs_pos_list.zip val_list, pv.1.length = pv.2.length)
    (hkg : kg = obs_pos_list.flatten.length) :
    ((return_loc_neighbors q obs_pos vals k).1.Perm vals ∧
      (return_loc_neighbors q obs_pos vals k).2.Perm obs_pos ∧
      (return_loc_neighbors q obs_pos vals k).2.Pairwise
        fun a b => euclid a q ≤ euclid b q) ∧
    ((∃ gvals gpos, return_glob_neighbors q obs_pos_list val_list kg =
        some (gvals, gpos) ∧
      gvals.Perm val_list.flatten ∧ gpos.Perm obs_pos_list.flatten ∧
      gpos.Pairwise fun a b => euclid a q ≤ euclid b q) ∧
    (∀ n, return_glob_neighbors q obs_pos_list val_list n = none ↔
      obs_pos_list.flatten.length < n)) := by
  constructor
  · have hpairs : (obs_pos.zip vals).length ≤ k := by
      rw [List.length_zip, hlen, Nat.min_self]
      exact hk
    obtain ⟨hperm, hpw⟩ := sorted_neighbors_all q (obs_pos.zip vals) k hpairs
    refine ⟨?_, ?_, hpw⟩
    · have := hperm.map Prod.snd
      rwa [List.map_snd_zip _ _ (le_of_eq hlen)] at this
    · have := hperm.map Prod.fst
      rwa [List.map_fst_zip _ _ (le_of_eq hlen.symm)] at this
  · have hfst : (((obs_pos_list.zip val_list).map fun pv => pv.1.zip pv.2).map
        (List.map Prod.fst)) = (obs_pos_list.zip val_list).map Prod.fst := by
      rw [List.map_map]
      refine List.map_congr_left fun pv hpv => ?_
      exact List.map_fst_zip _ _ (le_of_eq (hlen3 pv hpv))
    have hsnd : (((obs_pos_list.zip val_list).map fun pv => pv.1.zip pv.2).map
        (List.map Prod.snd)) = (obs_pos_list.zip val_list).map Prod.snd := by
      rw [List.map_map]
      refine List.map_congr_left fun pv hpv => ?_
      exact List.map_snd_zip _ _ (le_of_eq (hlen3 pv hpv).symm)
    have hallfst : (((obs_pos_list.zip val_list).map fun pv =>
        pv.1.zip pv.2).flatten).map Prod.fst = obs_pos_list.flatten := by
      rw [List.map_flatten, hfst, List.map_fst_zip _ _ (le_of_eq hlen2.symm)]
    have hallsnd : (((obs_pos_list.zip val_list).map fun pv =>
        pv.1.zip pv.2).flatten).map Prod.snd = val_list.flatten := by
      rw [List.map_flatten, hsnd, List.map_snd_zip _ _ (le_of_eq hlen2)]
    have hlf : (((obs_pos_list.zip val_list).map fun pv =>
        pv.1.zip pv.2).flatten).length = obs_pos_list.flatten.length := by
      have hlf0 := congrArg List.length hallfst
      rw [List.length_map] at hlf0
      exact hlf0
    constructor
    · -- `kg` equals the total: the gather succeeds and returns everything
      have hk' : (((obs_pos_list.zip val_list).map fun pv =>
          pv.1.zip pv.2).flatten).length ≤ kg := by
        omega
      obtain ⟨hperm, hpw⟩ := sorted_neighbors_all q
        (((obs_pos_list.zip val_list).map fun pv => pv.1.zip pv.2).flatten) kg hk'
      have hpl : kg ≤ (((((obs_pos_list.zip val_list).map fun pv =>
          pv.1.zip pv.2).flatten).mergeSort fun a b =>
            decide (distSq a.1 q ≤ distSq b.1 q)).take kg).length := by
        rw [List.length_take, List.length_mergeSort]
        omega
      have hgather := gatherRange_of_le _ kg hpl
      have htk : ((((((obs_pos_list.zip val_list).map fun pv =>
          pv.1.zip pv.2).flatten).mergeSort fun a b =>
            decide (distSq a.1 q ≤ distSq b.1 q)).take kg).take kg) =
          ((((obs_pos_list.zip val_list).map fun pv =>
            pv.1.zip pv.2).flatten).mergeSort fun a b =>
              decide (distSq a.1 q ≤ distSq b.1 q)).take kg :=
        List.take_of_length_le (by rw [List.length_take]; omega)
      rw [htk] at hgather
      refine ⟨(((((obs_pos_list.zip val_list).map fun pv =>
          pv.1.zip pv.2).flatten).mergeSort fun a b =>
            decide (distSq a.1 q ≤ distSq b.1 q)).take kg).map Prod.snd,
        (((((obs_pos_list.zip val_list).map fun pv =>
          pv.1.zip pv.2).flatten).mergeSort fun a b =>
            decide (distSq a.1 q ≤ distSq b.1 q)).take kg).map Prod.fst,
        ?_, ?_, ?_, hpw⟩
      · simp only [return_glob_neighbors]
        rw [hgather]
      · have := hperm.map Prod.snd
        rwa [hallsnd] at this
      · have := hperm.map Prod.fst
        rwa [hallfst] at this
    · -- the gather fails exactly when `n` exceeds the total
      intro n
      constructor
      · intro hnone
        by_contra hle
        push_neg at hle
        have hpl : n ≤ (((((obs_pos_list.zip val_list).map fun pv =>
            pv.1.zip pv.2).flatten).mergeSort fun a b =>
              decide (distSq a.1 q ≤ distSq b.1 q)).take n).length := by
          rw [List.length_take, List.length_mergeSort]
          omega
        have hg := gatherRange_of_le _ n hpl
        simp only [return_glob_neighbors] at hnone
        rw [hg] at hnone
        simp at hnone
      · intro hlt
        simp only [return_glob_neighbors]
        rw [gatherRange_none _ _ (by rw [List.length_take, List.length_mergeSort]; omega)]

/-- Witness for C3: one CCD with two positions and integer values, local
`k = 5` larger than the total, global `kg = 2` equal to the total. -/
theorem neighbors_return_all_sorted_witness :
    (([((0:ℚ), (0:ℚ)), (3, 4)].length = [((0:ℚ), (0:ℚ)), (3, 4)].length) ∧
      [((0:ℚ), (0:ℚ)), (3, 4)].length ≤ 5) ∧
    (return_loc_neighbors ((0:ℚ), (0:ℚ)) [((0:ℚ), (0:ℚ)), (3, 4)] [(10:ℤ), 20] 5).1.Perm
      [(10:ℤ), 20] :=
  ⟨⟨rfl, by decide⟩,
    ((neighbors_return_all_sorted ((0:ℚ), (0:ℚ)) [((0:ℚ), (0:ℚ)), (3, 4)] [(10:ℤ), 20] 5
      [[((0:ℚ), (0:ℚ)), (3, 4)]] [[(10:ℤ), 20]] 2
      (by decide) (by decide) (by decide)
      (by intro pv hpv; simp at hpv; subst hpv; rfl)
      rfl).1).1⟩

/-! ## `MomentInterpolator.__init__` grid reorientation (claim C8)

The triple loop writes `self.moment_map[ccd_it, x, y] = moment_map[ccd_it,
it_x, it_y]` into an array initialized with `np.zeros`.  The state is
modelled as a function from `ℤ × ℤ × ℤ` index triples (written indices are
computed in `ℤ`, so the per-branch index transforms are global bijections)
and the loop as a left fold of `Function.update` writes. -/

/-- A fold of array writes at keys never equal to `k` leaves the state at `k`
unchanged. -/
theorem foldl_update_of_not_target {α β γ : Type} [DecidableEq α]
    (tgt : β → α) (val : β → γ) (l : List β) (m : α → γ) (k : α)
    (h : ∀ w ∈ l, tgt w ≠ k) :
    (l.foldl (fun m w => Function.update m (tgt w) (val w)) m) k = m k := by
  induction l generalizing m with
  | nil => rfl
  | cons w ws ih =>
      rw [List.foldl_cons, ih _ fun w' hw' => h w' (List.mem_cons_of_mem _ hw'),
        Function.update_noteq (fun hk => h w (List.mem_cons_self w ws) hk.symm)]

/-- A fold of array writes with an injective key function: the state at the
key of any listed write holds that write's value. -/
theorem foldl_update_of_injective {α β γ : Type} [DecidableEq α]
    (tgt : β → α) (val : β → γ) (hinj : Function.Injective tgt)
    (l : List β) (m : α → γ) (t : β) (ht : t ∈ l) :
    (l.foldl (fun m w => Function.update m (tgt w) (val w)) m) (tgt t) = val t := by
  induction l generalizing m with
  | nil => cases ht
  | cons w ws ih =>
      by_cases hmem : t ∈ ws
      · rw [List.foldl_cons]
        exact ih _ hmem
      · have hw : t = w := by
          rcases List.mem_cons.mp ht with h | h
          · exact h
          · exact absurd h hmem
        subst hw
        rw [List.foldl_cons,
          foldl_update_of_not_target tgt val ws _ (tgt t)
            (fun w' hw' heq => hmem (hinj heq ▸ hw'))]
        exact Function.update_same _ _ _

/-- The write target of one iteration of the reorientation loop: CCDs `< 18`
or in `[36, 37]` keep the cell at the same `(it_x, it_y)`, the others write it
to `(x_grid - it_x - 1, y_grid - it_y - 1)`. -/
def momentTarget (x_grid y_grid : ℕ) (w : ℕ × ℕ × ℕ) : ℤ × ℤ × ℤ :=
  if w.1 < 18 ∨ w.1 = 36 ∨ w.1 = 37 then
    ((w.1 : ℤ), (w.2.1 : ℤ), (w.2.2 : ℤ))
  else
    ((w.1 : ℤ), (x_grid : ℤ) - (w.2.1 : ℤ) - 1, (y_grid : ℤ) - (w.2.2 : ℤ) - 1)

/-- The iteration space of the triple loop
(`for ccd_it / for it_x / for it_y`). -/
def momentWrites (n_ccd x_grid y_grid : ℕ) : List (ℕ × ℕ × ℕ) :=
  (List.range n_ccd).flatMap fun c =>
    (List.range x_grid).flatMap fun ix =>
      (List.range y_grid).map fun iy => (c, ix, iy)

/-- `self.moment_map` after the reorientation loop of
`MomentInterpolator.__init__`: all writes applied to the zero array. -/
def reorientedMomentMap (M : ℕ → ℕ → ℕ → ℚ) (n_ccd x_grid y_grid : ℕ) :
    ℤ × ℤ × ℤ → ℚ :=
  (momentWrites n_ccd x_grid y_grid).foldl
    (fun m w => Function.update m (momentTarget x_grid y_grid w) (M w.1 w.2.1 w.2.2))
    fun _ => 0

theorem momentTarget_injective (x_grid y_grid : ℕ) :
    Function.Injective (momentTarget x_grid y_grid) := by
  intro a b hab
  rcases a with ⟨ac, ax, ay⟩
  rcases b with ⟨bc, bx, bz⟩
  simp only [momentTarget] at hab
  split_ifs at hab with h1 h2 h2 <;>
    · simp only [Prod.mk.injEq] at hab ⊢
      omega

theorem mem_momentWrites {n_ccd x_grid y_grid c ix iy : ℕ}
    (hc : c < n_ccd) (hx : ix < x_grid) (hy : iy < y_grid) :
    (c, ix, iy) ∈ momentWrites n_ccd x_grid y_grid := by
  unfold momentWrites
  simp only [List.mem_flatMap, List.mem_map, List.mem_range]
  exact ⟨c, hc, ix, hx, iy, hy, rfl⟩

/-- Claim C8: for every CCD and in-range grid cell `(r, s)`, the reoriented
grid keeps the cell at the same index exactly when the CCD id is below 18 or
is 36 or 37, and otherwise moves it to `(x_grid - 1 - r, y_grid - 1 - s)`;
and the reorientation condition is the same tile-id predicate as the
`Loc2Glob.flip_coord` orientation flip. -/
theorem reorientedMomentMap_spec (M : ℕ → ℕ → ℕ → ℚ) (n_ccd x_grid y_grid c r s : ℕ)
    (hc : c < n_ccd) (hr : r < x_grid) (hs : s < y_grid) :
    ((c < 18 ∨ c = 36 ∨ c = 37) →
      reorientedMomentMap M n_ccd x_grid y_grid ((c : ℤ), (r : ℤ), (s : ℤ)) = M c r s) ∧
    (¬(c < 18 ∨ c = 36 ∨ c = 37) →
      reorientedMomentMap M n_ccd x_grid y_grid
        ((c : ℤ), (x_grid : ℤ) - (r : ℤ) - 1, (y_grid : ℤ) - (s : ℤ) - 1) = M c r s) ∧
    (∀ n : ℕ, ((n : ℤ) < 18 ∨ (n : ℤ) = 36 ∨ (n : ℤ) = 37) ↔
      (n < 18 ∨ n = 36 ∨ n = 37)) := by
  have hkey := foldl_update_of_injective (momentTarget x_grid y_grid)
    (fun w => M w.1 w.2.1 w.2.2) (momentTarget_injective x_grid y_grid)
    (momentWrites n_ccd x_grid y_grid) (fun _ => 0) (c, r, s)
    (mem_momentWrites hc hr hs)
  refine ⟨?_, ?_, ?_⟩
  · intro hcond
    have htgt : momentTarget x_grid y_grid (c, r, s) = ((c : ℤ), (r : ℤ), (s : ℤ)) := by
      simp [momentTarget, hcond]
    unfold reorientedMomentMap
    rw [← htgt]
    exact hkey
  · intro hcond
    have htgt : momentTarget x_grid y_grid (c, r, s) =
        ((c : ℤ), (x_grid : ℤ) - (r : ℤ) - 1, (y_grid : ℤ) - (s : ℤ) - 1) := by
      simp only [momentTarget, if_neg hcond]
    unfold reorientedMomentMap
    rw [← htgt]
    exact hkey
  · intro n
    constructor <;> intro h <;> omega

/-- Witness for C8: a 40-CCD, 2×3 grid; CCD 0 is in the forward-order half,
cell (0,0) stays in place. -/
theorem reorientedMomentMap_spec_witness :
    ((0 : ℕ) < 40 ∧ (0 : ℕ) < 2 ∧ (0 : ℕ) < 3 ∧
      ((0 : ℕ) < 18 ∨ (0 : ℕ) = 36 ∨ (0 : ℕ) = 37)) ∧
      reorientedMomentMap (fun c ix iy => (c : ℚ) + 10 * ix + 100 * iy) 40 2 3
        ((0 : ℤ), (0 : ℤ), (0 : ℤ)) = 0 := by
  refine ⟨⟨by decide, by decide, by decide, by decide⟩, ?_⟩
  have h := (reorientedMomentMap_spec (fun c ix iy => (c : ℚ) + 10 * ix + 100 * iy)
    40 2 3 0 0 0 (by decide) (by decide) (by decide)).1 (by decide)
  simpa using h

/-! ## `interpolation_Pi` (claim C7)

Matrices are lists of rows (one row per monomial), one matrix per CCD.
Square roots force the reals here. -/

/-- The monomial exponent pairs of total degree ≤ `d`, constant term first. -/
def monomials (d : ℕ) : List (ℕ × ℕ) :=
  (List.range (d + 1)).flatMap fun t => (List.range (t + 1)).map fun i => (t - i, i)

/-- `n_comp_glob = (d_comp_glob + 1) * (d_comp_glob + 2) // 2`. -/
def n_comp_glob (d : ℕ) : ℕ := (d + 1) * (d + 2) / 2

/-- Modelled from the spec: `mccd_rca.utils.poly_pos` is not part of this
repository's sources; the spec describes it as the polynomial design matrix
over all monomials of total degree ≤ `maxDegree` in `(x, y)` (row count
`(maxDegree+1)(maxDegree+2)/2`), unnormalized and uncentered here
(`normalice=False, center=False`), with the constant term as row 0. -/
noncomputable def poly_pos (pos : List (ℝ × ℝ)) (d : ℕ) : List (List ℝ) :=
  (monomials d).map fun ab => pos.map fun p => p.1 ^ ab.1 * p.2 ^ ab.2

/-- The unnormalized matrices `interp_Pi` (one `poly_pos` call per CCD). -/
noncomputable def interp_Pi_raw (position_list : List (List (ℝ × ℝ))) (d : ℕ) :
    List (List (List ℝ)) :=
  position_list.map fun pos => poly_pos pos d

/-- `sum_vals`: for each monomial row index, the square root of the sum over
all CCDs of the squared row entries (the global per-row L2 norm). -/
noncomputable def sum_vals (Ms : List (List (List ℝ))) (n : ℕ) : List ℝ :=
  (List.range n).map fun k =>
    Real.sqrt ((Ms.map fun M => ((M.getD k []).map fun v => v ^ 2).sum).sum)

/-- First normalization stage: `interp_Pi[it] / sum_vals.reshape(-1, 1)` —
every row of every CCD matrix divided by that row's global norm. -/
noncomputable def interp_Pi_stage1 (position_list : List (List (ℝ × ℝ))) (d : ℕ) :
    List (List (List ℝ)) :=
  (interp_Pi_raw position_list d).map fun M =>
    (M.zip (sum_vals (interp_Pi_raw position_list d) (n_comp_glob d))).map
      fun rs => rs.1.map fun v => v / rs.2

/-- `interpolation_Pi`: the two normalization stages — global per-row norms,
then division of every matrix by the constant-term entry
`interp_Pi[0][0, 0]` of the first CCD. -/
noncomputable def interpolation_Pi (position_list : List (List (ℝ × ℝ))) (d : ℕ) :
    List (List (List ℝ)) :=
  let norm_val := (((interp_Pi_stage1 position_list d).headD []).headD []).headD 0
  (interp_Pi_stage1 position_list d).map fun M => M.map fun row => row.map fun v => v / norm_val

theorem monomials_cons (d : ℕ) :
    monomials d = (0, 0) :: ((List.range d).map Nat.succ).flatMap
      (fun t => (List.range (t + 1)).map fun i => (t - i, i)) := by
  unfold monomials
  rw [List.range_succ_eq_map, List.flatMap_cons]
  rfl

theorem monomials_length (d : ℕ) : (monomials d).length = n_comp_glob d := by
  induction d with
  | zero => rfl
  | succ n ih =>
      have key : n_comp_glob n + (n + 2) = n_comp_glob (n + 1) := by
        unfold n_comp_glob
        have h2 : (n + 1 + 1) * (n + 1 + 2) = (n + 1) * (n + 2) + 2 * (n + 2) := by ring
        rw [h2, Nat.add_mul_div_left _ _ (by norm_num : (0 : ℕ) < 2)]
      unfold monomials at ih ⊢
      rw [List.range_succ, List.flatMap_append, List.length_append, ih]
      simp only [List.flatMap_cons, List.flatMap_nil, List.append_nil, List.length_map,
        List.length_range]
      exact key

theorem one_le_n_comp_glob (d : ℕ) : 1 ≤ n_comp_glob d := by
  unfold n_comp_glob
  rw [Nat.le_div_iff_mul_le (by norm_num)]
  have hexp : (d + 1) * (d + 2) = d * d + 3 * d + 2 := by ring
  rw [hexp, one_mul]
  exact Nat.le_add_left 2 (d * d + 3 * d)

/-- Claim C7: `interpolation_Pi` is the composition of exactly the two
normalization stages (global per-monomial L2 norm, then rescale by the first
CCD's constant-term entry), every produced matrix has `(d+1)(d+2)/2` rows,
and the constant-term entry of CCD 0 of the result equals 1 exactly. -/
theorem interpolation_Pi_spec (position_list : List (List (ℝ × ℝ))) (d : ℕ)
    (p0 : List (ℝ × ℝ)) (ps : List (List (ℝ × ℝ)))
    (hpl : position_list = p0 :: ps) (h0 : p0 ≠ []) :
    (interpolation_Pi position_list d =
      (interp_Pi_stage1 position_list d).map fun M => M.map fun row => row.map fun v =>
        v / (((interp_Pi_stage1 position_list d).headD []).headD []).headD 0) ∧
    (∀ M ∈ interpolation_Pi position_list d, M.length = n_comp_glob d) ∧
    (((interpolation_Pi position_list d).headD []).headD []).headD 0 = 1 := by
  subst hpl
  obtain ⟨q, p0', rfl⟩ : ∃ q p0', p0 = q :: p0' := by
    cases p0 with
    | nil => exact absurd rfl h0
    | cons q r => exact ⟨q, r, rfl⟩
  obtain ⟨m, hm⟩ : ∃ m, n_comp_glob d = m + 1 :=
    ⟨n_comp_glob d - 1, by have := one_le_n_comp_glob d; omega⟩
  -- the head matrix of the raw stage and its constant row
  have hraw : interp_Pi_raw ((q :: p0') :: ps) d =
      poly_pos (q :: p0') d :: ps.map fun pos => poly_pos pos d := by
    unfold interp_Pi_raw
    rw [List.map_cons]
  have hpoly : poly_pos (q :: p0') d =
      ((q :: p0').map fun p => p.1 ^ (0 : ℕ) * p.2 ^ (0 : ℕ)) ::
        (((List.range d).map Nat.succ).flatMap
          (fun t => (List.range (t + 1)).map fun i => (t - i, i))).map
            (fun ab => (q :: p0').map fun p => p.1 ^ ab.1 * p.2 ^ ab.2) := by
    unfold poly_pos
    rw [monomials_cons, List.map_cons]
  -- the global norm of the constant row
  set S : ℝ := ((interp_Pi_raw ((q :: p0') :: ps) d).map
    fun M => ((M.getD 0 []).map fun v => v ^ 2).sum).sum with hS
  have hsv : sum_vals (interp_Pi_raw ((q :: p0') :: ps) d) (n_comp_glob d) =
      Real.sqrt S ::
        ((List.range m).map Nat.succ).map fun k =>
          Real.sqrt (((interp_Pi_raw ((q :: p0') :: ps) d).map
            fun M => ((M.getD k []).map fun v => v ^ 2).sum).sum) := by
    unfold sum_vals
    rw [hm, List.range_succ_eq_map, List.map_cons]
  -- positivity of the constant row's global norm
  have hconstrow : ((poly_pos (q :: p0') d).getD 0 []) =
      (q :: p0').map fun p => p.1 ^ (0 : ℕ) * p.2 ^ (0 : ℕ) := by
    rw [hpoly]
    rfl
  have hfirst : (((poly_pos (q :: p0') d).getD 0 []).map fun v => v ^ 2).sum =
      ((q :: p0').length : ℝ) := by
    rw [hconstrow, List.map_map]
    have : ((q :: p0').map ((fun v => v ^ 2) ∘ fun p : ℝ × ℝ =>
        p.1 ^ (0 : ℕ) * p.2 ^ (0 : ℕ))) = (q :: p0').map fun _ => (1 : ℝ) := by
      refine List.map_congr_left fun p _ => ?_
      simp
    rw [this, List.map_const', List.sum_replicate, nsmul_eq_mul, mul_one]
  have hrest : 0 ≤ ((ps.map fun pos => poly_pos pos d).map
      fun M => ((M.getD 0 []).map fun v => v ^ 2).sum).sum := by
    apply List.sum_nonneg
    intro x hx
    obtain ⟨M, _, rfl⟩ := List.mem_map.mp hx
    apply List.sum_nonneg
    intro y hy
    obtain ⟨v, _, rfl⟩ := List.mem_map.mp hy
    exact sq_nonneg v
  have hSpos : 0 < S := by
    rw [hS, hraw, List.map_cons, List.sum_cons, hfirst]
    have hlen : (1 : ℝ) ≤ ((q :: p0').length : ℝ) := by
      have : 1 ≤ (q :: p0').length := by simp
      exact_mod_cast this
    linarith
  have hsqrt : Real.sqrt S ≠ 0 := (Real.sqrt_pos.mpr hSpos).ne'
  -- the constant-term entry after stage 1
  have hstage1 : (((interp_Pi_stage1 ((q :: p0') :: ps) d).headD []).headD []).headD 0 =
      1 / Real.sqrt S := by
    unfold interp_Pi_stage1
    rw [hsv, hraw]
    simp only [List.map_cons]
    rw [hpoly]
    simp only [List.zip_cons_cons, List.map_cons, List.headD_cons]
    simp only [pow_zero, one_mul]
  refine ⟨rfl, ?_, ?_⟩
  · intro M hM
    unfold interpolation_Pi at hM
    simp only [List.mem_map] at hM
    obtain ⟨M2, hM2, rfl⟩ := hM
    unfold interp_Pi_stage1 at hM2
    simp only [List.mem_map] at hM2
    obtain ⟨M1, hM1, rfl⟩ := hM2
    unfold interp_Pi_raw at hM1
    simp only [List.mem_map] at hM1
    obtain ⟨pos, _, rfl⟩ := hM1
    rw [List.length_map, List.length_map, List.length_zip]
    unfold poly_pos sum_vals
    rw [List.length_map, List.length_map, List.length_range, monomials_length,
      Nat.min_self]
  · simp only [interpolation_Pi]
    rw [hstage1]
    unfold interp_Pi_stage1
    rw [hsv, hraw]
    simp only [List.map_cons]
    rw [hpoly]
    simp only [List.zip_cons_cons, List.map_cons, List.headD_cons]
    simp only [pow_zero, one_mul]
    exact div_self (one_div_ne_zero hsqrt)

/-- Witness for C7: a single CCD with one position. -/
theorem interpolation_Pi_spec_witness :
    (([[((2 : ℝ), (3 : ℝ))]] : List (List (ℝ × ℝ))) = [((2 : ℝ), (3 : ℝ))] :: [] ∧
      ([((2 : ℝ), (3 : ℝ))] : List (ℝ × ℝ)) ≠ []) ∧
    (((interpolation_Pi [[((2 : ℝ), (3 : ℝ))]] 1).headD []).headD []).headD 0 = 1 :=
  ⟨⟨rfl, by simp⟩,
    (interpolation_Pi_spec [[((2 : ℝ), (3 : ℝ))]] 1 [((2 : ℝ), (3 : ℝ))] [] rfl
      (by simp)).2.2⟩

/-! ## `MccdInputs.outlier_rejection` (claims C2, C10)

Stamps and masks are abstract (type `S`), positions (`P`) and the optional
per-star columns (`V`) as well.  The HSM adaptive-moment measurement —
together with the `badpix` inversion `np.rint(np.abs(all_masks - 1))` that
feeds it — is the external collaborator `measure`, returning per star the
triple `(e1, e2, R2) = (g1, g2, 2*moments_sigma**2)`.  `np.std` needs a
square root, hence `ℝ`. -/

/-- `np.mean`. -/
noncomputable def listMean (l : List ℝ) : ℝ := l.sum / l.length

/-- `np.std` (population standard deviation). -/
noncomputable def listStd (l : List ℝ) : ℝ :=
  Real.sqrt (listMean (l.map fun v => (v - listMean l) ^ 2))

/-- `star_shapes`: one measured triple per star of the concatenated
(`np.concatenate(..., axis=2)`, then `reg_format`) stars and masks. -/
noncomputable def star_shapes {S : Type} (measure : S → S → ℝ × ℝ × ℝ)
    (star_list mask_list : List (List S)) : List (ℝ × ℝ × ℝ) :=
  (star_list.flatten.zip mask_list.flatten).map fun sm => measure sm.1 sm.2

/-- `bad_stars`: a star is bad when `|e1|`, `|e2|` or `|R2|` exceeds the
batch-global threshold `shape_std_max * std + mean` of its quantity. -/
noncomputable def bad_stars (shapes : List (ℝ × ℝ × ℝ)) (shape_std_max : ℝ) :
    List Bool :=
  let e1s := shapes.map fun t => t.1
  let e2s := shapes.map fun t => t.2.1
  let R2s := shapes.map fun t => t.2.2
  let e1_thresh := shape_std_max * listStd e1s + listMean e1s
  let e2_thresh := shape_std_max * listStd e2s + listMean e2s
  let R2_thresh := shape_std_max * listStd R2s + listMean R2s
  shapes.map fun t =>
    decide (|t.1| > e1_thresh) || decide (|t.2.1| > e2_thresh) ||
      decide (|t.2.2| > R2_thresh)

/-- Split a global per-star vector into per-CCD chunks of the given sizes:
the `idx_ref` bookkeeping assigns global star ids consecutively per CCD in
CCD order, so the per-CCD erase masks are the chunks of the global bad
vector. -/
def splitByLens {α : Type} : List ℕ → List α → List (List α)
  | [], _ => []
  | n :: ns, xs => xs.take n :: splitByLens ns (xs.drop n)

/-- Boolean-mask selection `xs[~erase]` (order preserving). -/
def keepByErase {α : Type} (xs : List α) (er : List Bool) : List α :=
  ((xs.zip er).filter fun p => !p.2).map Prod.fst

/-- The 8-tuple returned by `outlier_rejection`. -/
structure RejOut (S P V : Type) where
  star_list : List (List S)
  pos_list : List (List P)
  mask_list : List (List S)
  ccd_list : List ℤ
  SNR_list : Option (List (List V))
  RA_list : Option (List (List V))
  DEC_list : Option (List (List V))
  erase_masks : List (List Bool)

/-- `MccdInputs.outlier_rejection`: measure every star of the batch, compute
the three batch-global thresholds once, flag the bad stars, and — only when
there is at least one — erase them from every per-CCD list (stamps, masks,
positions, and the SNR/RA/DEC lists when present) with the per-CCD boolean
masks `~erase_masks[i]`; the `erase_masks` are returned as well. -/
noncomputable def outlier_rejection {S P V : Type} (measure : S → S → ℝ × ℝ × ℝ)
    (star_list : List (List S)) (pos_list : List (List P))
    (mask_list : List (List S)) (ccd_list : List ℤ)
    (SNR_list RA_list DEC_list : Option (List (List V)))
    (shape_std_max : ℝ) : RejOut S P V :=
  let bad := bad_stars (star_shapes measure star_list mask_list) shape_std_max
  let erase_masks := splitByLens (star_list.map List.length) bad
  if bad.any id then
    RejOut.mk
      ((star_list.zip erase_masks).map fun p => keepByErase p.1 p.2)
      ((pos_list.zip erase_masks).map fun p => keepByErase p.1 p.2)
      ((mask_list.zip erase_masks).map fun p => keepByErase p.1 p.2)
      ccd_list
      (SNR_list.map fun l => (l.zip erase_masks).map fun p => keepByErase p.1 p.2)
      (RA_list.map fun l => (l.zip erase_masks).map fun p => keepByErase p.1 p.2)
      (DEC_list.map fun l => (l.zip erase_masks).map fun p => keepByErase p.1 p.2)
      erase_masks
  else
    RejOut.mk star_list pos_list mask_list ccd_list SNR_list RA_list DEC_list
      erase_masks

theorem splitByLens_length {α : Type} (lens : List ℕ) (xs : List α) :
    (splitByLens lens xs).length = lens.length := by
  induction lens generalizing xs with
  | nil => rfl
  | cons n ns ih => simp [splitByLens, ih]

/-- Selecting all available indices returns the list itself. -/
theorem filterMap_getElem_range {α : Type} (xs : List α) :
    (List.range xs.length).filterMap (fun j => xs[j]?) = xs := by
  induction xs with
  | nil => rfl
  | cons x xs ih =>
      rw [List.length_cons, List.range_succ_eq_map, List.filterMap_cons]
      simp only [List.getElem?_cons_zero, List.filterMap_map]
      have hcomp : ((fun j => (x :: xs)[j]?) ∘ Nat.succ) = fun j => xs[j]? := by
        funext j
        simp
      rw [hcomp, ih]

theorem map_fst_zip_sublist {α β : Type} :
    ∀ (xs : List α) (er : List β), ((xs.zip er).map Prod.fst).Sublist xs
  | [], _ => by simp
  | _ :: _, [] => by simp
  | x :: xs, b :: er => by
      simp only [List.zip_cons_cons, List.map_cons]
      exact List.Sublist.cons₂ x (map_fst_zip_sublist xs er)

theorem keepByErase_sublist {α : Type} (xs : List α) (er : List Bool) :
    (keepByErase xs er).Sublist xs :=
  ((List.filter_sublist _).map Prod.fst).trans (map_fst_zip_sublist xs er)

/-- Claim-side selection operator: keep, in order, exactly the entries at
indices where `keep` holds. -/
def selectKeep {α : Type} (xs : List α) (keep : ℕ → Bool) : List α :=
  ((List.range xs.length).filter keep).filterMap fun j => xs[j]?

/-- The per-tile keep predicate: not flagged in the global bad vector at the
tile's offset. -/
def tileKeep (bad : List Bool) (off : ℕ) : ℕ → Bool := fun j => !(bad.getD (off + j) false)

theorem selectKeep_cons {α : Type} (x : α) (xs : List α) (keep : ℕ → Bool) :
    selectKeep (x :: xs) keep =
      (if keep 0 then [x] else []) ++ selectKeep xs (keep ∘ Nat.succ) := by
  unfold selectKeep
  rw [List.length_cons, List.range_succ_eq_map, List.filter_cons, List.filter_map]
  have hco : ((fun j => (x :: xs)[j]?) ∘ Nat.succ) = fun j => xs[j]? := by
    funext j
    simp
  rcases Bool.eq_false_or_eq_true (keep 0) with h | h
  · simp [h, List.filterMap_map, hco]
  · simp [h, List.filterMap_map, hco]

theorem keepByErase_eq_selectKeep {α : Type} :
    ∀ (xs : List α) (er : List Bool), er.length = xs.length →
      keepByErase xs er = selectKeep xs fun j => !(er.getD j false)
  | [], [], _ => rfl
  | [], _ :: _, h => by simp at h
  | _ :: _, [], h => by simp at h
  | x :: xs, b :: er, h => by
      have h' : er.length = xs.length := by simpa using h
      have ih := keepByErase_eq_selectKeep xs er h'
      rw [selectKeep_cons]
      have hcomp : ((fun j => !(List.getD (b :: er) j false)) ∘ Nat.succ) =
          fun j => !(er.getD j false) := by
        funext j
        simp
      rw [hcomp, ← ih]
      unfold keepByErase
      rw [List.zip_cons_cons, List.filter_cons]
      rcases Bool.eq_false_or_eq_true b with hb | hb
      · subst hb
        simp
      · subst hb
        simp

theorem splitByLens_getD {α : Type} :
    ∀ (lens : List ℕ) (xs : List α) (i : ℕ), i < lens.length →
      (splitByLens lens xs).getD i [] =
        (xs.drop ((lens.take i).sum)).take (lens.getD i 0)
  | [], _, i, hi => by simp at hi
  | n :: ns, xs, 0, _ => by simp [splitByLens]
  | n :: ns, xs, i + 1, hi => by
      have hi' : i < ns.length := by simpa using hi
      have ih := splitByLens_getD ns (xs.drop n) i hi'
      simp only [splitByLens, List.getD_cons_succ, List.take_succ_cons, List.sum_cons,
        List.getD_cons_succ] at ih ⊢
      rw [ih, List.drop_drop]

theorem drop_take_getD {α : Type} (xs : List α) (off n j : ℕ) (d : α) (hj : j < n)
    (hlen : off + j < xs.length) :
    ((xs.drop off).take n).getD j d = xs.getD (off + j) d := by
  have h1 : j < ((xs.drop off).take n).length := by
    rw [List.length_take, List.length_drop]
    omega
  have h2 : j < (xs.drop off).length := by
    rw [List.length_drop]
    omega
  rw [List.getD_eq_getElem _ _ h1, List.getD_eq_getElem _ _ hlen]
  rw [List.getElem_take, List.getElem_drop]

theorem take_sum_add_getD_le : ∀ (lens : List ℕ) (i : ℕ), i < lens.length →
    (lens.take i).sum + lens.getD i 0 ≤ lens.sum
  | [], i, hi => by simp at hi
  | n :: ns, 0, _ => by simp
  | n :: ns, i + 1, hi => by
      have hi' : i < ns.length := by simpa using hi
      have ih := take_sum_add_getD_le ns i hi'
      simp only [List.take_succ_cons, List.sum_cons, List.getD_cons_succ]
      omega

theorem bad_stars_length {S : Type} (measure : S → S → ℝ × ℝ × ℝ)
    (star_list mask_list : List (List S)) (sigma : ℝ)
    (hflat : mask_list.flatten.length = star_list.flatten.length) :
    (bad_stars (star_shapes measure star_list mask_list) sigma).length =
      (star_list.map List.length).sum := by
  unfold bad_stars star_shapes
  simp [List.length_zip, hflat]

theorem getD_false_of_all_false (l : List Bool) (h : l.any id = false) (k : ℕ) :
    l.getD k false = false := by
  rcases Nat.lt_or_ge k l.length with hk | hk
  · rw [List.getD_eq_getElem _ _ hk]
    have := List.any_eq_false.mp h _ (l.getElem_mem hk)
    simpa using this
  · rw [List.getD_eq_default _ _ hk]

theorem lens_getD_eq {S : Type} (star_list : List (List S)) (i : ℕ)
    (hi : i < star_list.length) :
    (star_list.map List.length).getD i 0 = (star_list.getD i []).length := by
  rw [List.getD_eq_getElem _ _ (by simpa using hi), List.getD_eq_getElem _ _ hi,
    List.getElem_map]

theorem selectKeep_all_true {α : Type} (xs : List α) (keep : ℕ → Bool)
    (h : ∀ j, j < xs.length → keep j = true) : selectKeep xs keep = xs := by
  unfold selectKeep
  rw [List.filter_eq_self.mpr, filterMap_getElem_range]
  intro j hj
  exact h j (by simpa using hj)

theorem selectKeep_congr {α : Type} (xs : List α) (p q : ℕ → Bool)
    (h : ∀ j, j < xs.length → p j = q j) : selectKeep xs p = selectKeep xs q := by
  unfold selectKeep
  rw [List.filter_congr]
  intro j hj
  exact h j (by simpa using hj)

theorem selectKeep_no_bad {α : Type} (xs : List α) (bad : List Bool) (off : ℕ)
    (h : bad.any id = false) : selectKeep xs (tileKeep bad off) = xs :=
  selectKeep_all_true _ _ fun j _ => by
    unfold tileKeep
    rw [getD_false_of_all_false bad h]
    rfl

/-- Per-tile boolean-mask erasure, characterized as an index selection with
the global bad vector. -/
theorem keep_tile {α : Type} (xs_list : List (List α)) (bad : List Bool)
    (lens : List ℕ) (off : ℕ) (i : ℕ) (hi : i < xs_list.length)
    (hleni : i < lens.length)
    (hchunklen : ((splitByLens lens bad).getD i []).length = (xs_list.getD i []).length)
    (hentry : ∀ j, j < (xs_list.getD i []).length →
      ((splitByLens lens bad).getD i []).getD j false = bad.getD (off + j) false) :
    ((xs_list.zip (splitByLens lens bad)).map fun p => keepByErase p.1 p.2).getD i [] =
      selectKeep (xs_list.getD i []) (tileKeep bad off) := by
  have hzip : i < (xs_list.zip (splitByLens lens bad)).length := by
    rw [List.length_zip, splitByLens_length]
    omega
  have hlt : i < (splitByLens lens bad).length := by
    rw [splitByLens_length]
    exact hleni
  rw [List.getD_eq_getElem _ _ (by simpa using hzip), List.getElem_map, List.getElem_zip,
    ← List.getD_eq_getElem xs_list [] hi,
    ← List.getD_eq_getElem (splitByLens lens bad) [] hlt,
    keepByErase_eq_selectKeep _ _ hchunklen]
  exact selectKeep_congr _ _ _ fun j hj => by
    unfold tileKeep
    rw [hentry j hj]

theorem splitByLens_replicate : ∀ (lens : List ℕ),
    splitByLens lens (List.replicate lens.sum false) =
      lens.map fun n => List.replicate n false
  | [] => rfl
  | n :: ns => by
      simp only [splitByLens, List.sum_cons, List.map_cons]
      rw [List.take_replicate, List.drop_replicate]
      have h1 : min n (n + ns.sum) = n := by omega
      have h2 : n + ns.sum - n = ns.sum := by omega
      rw [h1, h2, splitByLens_replicate ns]

/-- Claim C2: the rejector computes the mean and standard deviation of e1,
e2, R2 once over the whole batch, removes an observation exactly when the
absolute value of at least one of its three shape quantities exceeds
`mean + sigma·std`, and removal applies one boolean keep-mask per tile —
identical across the stamps, masks, positions and the present SNR/RA/DEC
lists — preserving relative order (the outputs are index-selections, hence
sublists, by the same per-tile predicate). -/
theorem outlier_rejection_spec {S P V : Type} (measure : S → S → ℝ × ℝ × ℝ)
    (star_list : List (List S)) (pos_list : List (List P)) (mask_list : List (List S))
    (ccd_list : List ℤ) (snr ra decs : List (List V)) (sigma : ℝ) (i : ℕ)
    (shapes : List (ℝ × ℝ × ℝ)) (bad : List Bool) (off : ℕ) (out : RejOut S P V)
    (hshapes : shapes = star_shapes measure star_list mask_list)
    (hbad : bad = bad_stars shapes sigma)
    (hoff : off = ((star_list.map List.length).take i).sum)
    (hout : out = outlier_rejection measure star_list pos_list mask_list ccd_list
      (some snr) (some ra) (some decs) sigma)
    (hi : i < star_list.length)
    (hflat : mask_list.flatten.length = star_list.flatten.length)
    (hpos : pos_list.length = star_list.length)
    (hmask : mask_list.length = star_list.length)
    (hsnr : snr.length = star_list.length)
    (hra : ra.length = star_list.length)
    (hdec : decs.length = star_list.length)
    (hposlen : (pos_list.getD i []).length = (star_list.getD i []).length)
    (hmasklen : (mask_list.getD i []).length = (star_list.getD i []).length)
    (hsnrlen : (snr.getD i []).length = (star_list.getD i []).length)
    (hralen : (ra.getD i []).length = (star_list.getD i []).length)
    (hdeclen : (decs.getD i []).length = (star_list.getD i []).length) :
    (∀ j, j < (star_list.getD i []).length →
      (out.erase_masks.getD i []).getD j false = bad.getD (off + j) false) ∧
    (∀ g, g < shapes.length →
      (bad.getD g false = true ↔
        |(shapes.getD g (0, 0, 0)).1| >
            listMean (shapes.map fun t => t.1) +
              sigma * listStd (shapes.map fun t => t.1) ∨
          |(shapes.getD g (0, 0, 0)).2.1| >
            listMean (shapes.map fun t => t.2.1) +
              sigma * listStd (shapes.map fun t => t.2.1) ∨
          |(shapes.getD g (0, 0, 0)).2.2| >
            listMean (shapes.map fun t => t.2.2) +
              sigma * listStd (shapes.map fun t => t.2.2))) ∧
    (out.star_list.getD i [] = selectKeep (star_list.getD i []) (tileKeep bad off)) ∧
    (out.pos_list.getD i [] = selectKeep (pos_list.getD i []) (tileKeep bad off)) ∧
    (out.mask_list.getD i [] = selectKeep (mask_list.getD i []) (tileKeep bad off)) ∧
    ((out.SNR_list.getD []).getD i [] = selectKeep (snr.getD i []) (tileKeep bad off)) ∧
    ((out.RA_list.getD []).getD i [] = selectKeep (ra.getD i []) (tileKeep bad off)) ∧
    ((out.DEC_list.getD []).getD i [] = selectKeep (decs.getD i []) (tileKeep bad off)) ∧
    (out.star_list.getD i []).Sublist (star_list.getD i []) ∧
    (out.pos_list.getD i []).Sublist (pos_list.getD i []) ∧
    (out.mask_list.getD i []).Sublist (mask_list.getD i []) ∧
    out.ccd_list = ccd_list := by
  have hlenslen : (star_list.map List.length).length = star_list.length :=
    List.length_map _ _
  have hbadlen : bad.length = (star_list.map List.length).sum := by
    rw [hbad, hshapes]
    exact bad_stars_length measure star_list mask_list sigma hflat
  have hleni : (star_list.map List.length).getD i 0 = (star_list.getD i []).length :=
    lens_getD_eq star_list i hi
  have hilens : i < (star_list.map List.length).length := by
    rw [hlenslen]
    exact hi
  have hbound : off + (star_list.getD i []).length ≤ bad.length := by
    rw [hoff, hbadlen]
    have := take_sum_add_getD_le (star_list.map List.length) i hilens
    rw [hleni] at this
    exact this
  have herase : out.erase_masks = splitByLens (star_list.map List.length) bad := by
    rw [hout, hbad, hshapes]
    simp only [outlier_rejection]
    split_ifs <;> rfl
  have hchunk : (splitByLens (star_list.map List.length) bad).getD i [] =
      (bad.drop off).take ((star_list.map List.length).getD i 0) := by
    rw [hoff]
    exact splitByLens_getD _ _ _ hilens
  have hchunklen : ((splitByLens (star_list.map List.length) bad).getD i []).length =
      (star_list.getD i []).length := by
    rw [hchunk, List.length_take, List.length_drop, hleni]
    omega
  have hentry : ∀ j, j < (star_list.getD i []).length →
      ((splitByLens (star_list.map List.length) bad).getD i []).getD j false =
        bad.getD (off + j) false := by
    intro j hj
    rw [hchunk, hleni]
    exact drop_take_getD bad off _ j false hj (by omega)
  have hmain1 : ∀ j, j < (star_list.getD i []).length →
      (out.erase_masks.getD i []).getD j false = bad.getD (off + j) false := by
    intro j hj
    rw [herase]
    exact hentry j hj
  refine ⟨hmain1, ?_, ?_⟩
  · -- the outlier criterion, with the thresholds in the claim's orientation
    intro g hg
    rw [List.getD_eq_getElem _ _ hg, hbad]
    simp only [bad_stars]
    rw [List.getD_eq_getElem _ _ (by simpa using hg), List.getElem_map]
    simp only [Bool.or_eq_true, decide_eq_true_eq]
    rw [add_comm (sigma * listStd (shapes.map fun t => t.1)),
      add_comm (sigma * listStd (shapes.map fun t => t.2.1)),
      add_comm (sigma * listStd (shapes.map fun t => t.2.2)), or_assoc]
  -- the selections: case split on whether any star is bad
  rcases (Bool.eq_false_or_eq_true (bad.any id)).symm with hany | hany
  · -- no outlier: the erase step is skipped and the selections are identities
    have hfields : out = RejOut.mk star_list pos_list mask_list ccd_list
        (some snr) (some ra) (some decs)
        (splitByLens (star_list.map List.length) bad) := by
      have hne : ¬((bad_stars (star_shapes measure star_list mask_list) sigma).any id
          = true) := by
        rw [← hshapes, ← hbad]
        simp [hany]
      rw [hout, hbad, hshapes]
      simp only [outlier_rejection]
      rw [if_neg hne]
    rw [hfields]
    simp only [Option.getD_some]
    exact ⟨(selectKeep_no_bad _ bad off hany).symm,
      (selectKeep_no_bad _ bad off hany).symm,
      (selectKeep_no_bad _ bad off hany).symm,
      (selectKeep_no_bad _ bad off hany).symm,
      (selectKeep_no_bad _ bad off hany).symm,
      (selectKeep_no_bad _ bad off hany).symm,
      List.Sublist.refl _, List.Sublist.refl _, List.Sublist.refl _, by trivial⟩
  · -- at least one outlier: every list is erased with the same per-tile mask
    have hfields : out = RejOut.mk
        ((star_list.zip (splitByLens (star_list.map List.length) bad)).map
          fun p => keepByErase p.1 p.2)
        ((pos_list.zip (splitByLens (star_list.map List.length) bad)).map
          fun p => keepByErase p.1 p.2)
        ((mask_list.zip (splitByLens (star_list.map List.length) bad)).map
          fun p => keepByErase p.1 p.2)
        ccd_list
        (some ((snr.zip (splitByLens (star_list.map List.length) bad)).map
          fun p => keepByErase p.1 p.2))
        (some ((ra.zip (splitByLens (star_list.map List.length) bad)).map
          fun p => keepByErase p.1 p.2))
        (some ((decs.zip (splitByLens (star_list.map List.length) bad)).map
          fun p => keepByErase p.1 p.2))
        (splitByLens (star_list.map List.length) bad) := by
      have hyes : (bad_stars (star_shapes measure star_list mask_list) sigma).any id
          = true := by
        rw [← hshapes, ← hbad]
        exact hany
      rw [hout, hbad, hshapes]
      simp only [outlier_rejection]
      rw [if_pos hyes]
      rfl
    have hsel : ∀ {α : Type} (xs_list : List (List α)),
        i < xs_list.length →
        ((splitByLens (star_list.map List.length) bad).getD i []).length =
          (xs_list.getD i []).length →
        ((xs_list.zip (splitByLens (star_list.map List.length) bad)).map
          fun p : List α × List Bool => keepByErase p.1 p.2).getD i [] =
          selectKeep (xs_list.getD i []) (tileKeep bad off) := by
      intro α xs_list hxi hxlen
      refine keep_tile xs_list bad _ off i hxi hilens hxlen ?_
      intro j hj
      exact hentry j (by omega)
    rw [hfields]
    simp only [Option.getD_some]
    have hsub : ∀ {α : Type} (xs_list : List (List α)), i < xs_list.length →
        (((xs_list.zip (splitByLens (star_list.map List.length) bad)).map
          fun p : List α × List Bool => keepByErase p.1 p.2).getD i []).Sublist
          (xs_list.getD i []) := by
      intro α xs_list hxi
      rcases Nat.lt_or_ge i ((xs_list.zip (splitByLens (star_list.map List.length)
          bad)).map fun p => keepByErase p.1 p.2).length with hlt | hge
      · rw [List.getD_eq_getElem _ _ hlt, List.getElem_map, List.getElem_zip,
          ← List.getD_eq_getElem xs_list [] hxi]
        exact keepByErase_sublist _ _
      · rw [List.getD_eq_default _ _ hge]
        exact List.nil_sublist _
    exact ⟨hsel star_list hi hchunklen,
      hsel pos_list (by omega) (by rw [hchunklen, hposlen]),
      hsel mask_list (by omega) (by rw [hchunklen, hmasklen]),
      hsel snr (by omega) (by rw [hchunklen, hsnrlen]),
      hsel ra (by omega) (by rw [hchunklen, hralen]),
      hsel decs (by omega) (by rw [hchunklen, hdeclen]),
      hsub star_list hi, hsub pos_list (by omega), hsub mask_list (by omega), by trivial⟩

/-- Claim C10: when no observation exceeds any of the three shape thresholds,
`outlier_rejection` returns all seven input lists completely unchanged — the
erase step is skipped — together with the eighth output, one all-False
boolean erase-mask per tile with one entry per observation of that tile. -/
theorem outlier_rejection_no_outliers {S P V : Type} (measure : S → S → ℝ × ℝ × ℝ)
    (star_list : List (List S)) (pos_list : List (List P)) (mask_list : List (List S))
    (ccd_list : List ℤ) (SNR_list RA_list DEC_list : Option (List (List V)))
    (sigma : ℝ)
    (hflat : mask_list.flatten.length = star_list.flatten.length)
    (hnone : ∀ b ∈ bad_stars (star_shapes measure star_list mask_list) sigma,
      b = false) :
    outlier_rejection measure star_list pos_list mask_list ccd_list SNR_list RA_list
        DEC_list sigma =
      RejOut.mk star_list pos_list mask_list ccd_list SNR_list RA_list DEC_list
        (star_list.map fun s => List.replicate s.length false) := by
  have hany : (bad_stars (star_shapes measure star_list mask_list) sigma).any id
      = false := by
    rw [List.any_eq_false]
    intro b hb
    simp [hnone b hb]
  have hbadlen := bad_stars_length measure star_list mask_list sigma hflat
  have hrep : bad_stars (star_shapes measure star_list mask_list) sigma =
      List.replicate ((star_list.map List.length).sum) false :=
    List.eq_replicate_iff.mpr ⟨hbadlen, hnone⟩
  simp only [outlier_rejection]
  rw [if_neg (by simp [hany])]
  exact congrArg _ (by rw [hrep, splitByLens_replicate, List.map_map]; rfl)

/-- Witness for C2: one CCD with a single star whose measured shape is
`(0, 0, 0)`. -/
theorem outlier_rejection_spec_witness :
    ((0 : ℕ) < ([[PUnit.unit]] : List (List PUnit)).length) ∧
      (outlier_rejection (fun (_ _ : PUnit) => ((0 : ℝ), 0, 0)) [[PUnit.unit]]
        [[PUnit.unit]] [[PUnit.unit]] [4] (some [[PUnit.unit]]) (some [[PUnit.unit]])
        (some [[PUnit.unit]]) 5).ccd_list = [4] :=
  ⟨by decide,
    (outlier_rejection_spec (fun (_ _ : PUnit) => ((0 : ℝ), 0, 0)) [[PUnit.unit]]
      [[PUnit.unit]] [[PUnit.unit]] [4] [[PUnit.unit]] [[PUnit.unit]] [[PUnit.unit]]
      5 0 _ _ _ _ rfl rfl rfl rfl (by decide) rfl rfl rfl rfl rfl rfl rfl rfl rfl rfl
      rfl).2.2.2.2.2.2.2.2.2.2.2⟩

/-- Witness for C10: one CCD, one star, shape `(0, 0, 0)` — no outlier, so
everything is returned unchanged with an all-False erase mask. -/
theorem outlier_rejection_no_outliers_witness :
    (([[PUnit.unit]] : List (List PUnit)).flatten.length =
        ([[PUnit.unit]] : List (List PUnit)).flatten.length) ∧
      outlier_rejection (fun (_ _ : PUnit) => ((0 : ℝ), 0, 0)) [[PUnit.unit]]
          [[PUnit.unit]] [[PUnit.unit]] [4]
          (none : Option (List (List PUnit))) none none 5 =
        RejOut.mk [[PUnit.unit]] [[PUnit.unit]] [[PUnit.unit]] [4] none none none
          ([[PUnit.unit]].map fun s => List.replicate s.length false) :=
  ⟨rfl,
    outlier_rejection_no_outliers (fun (_ _ : PUnit) => ((0 : ℝ), 0, 0)) [[PUnit.unit]]
      [[PUnit.unit]] [[PUnit.unit]] [4] none none none 5 rfl
      (by
        intro b hb
        simp [bad_stars, star_shapes, listMean, listStd, Real.sqrt_zero] at hb
        exact hb)⟩

end Mccd
